import Mathlib

/-!
Verification of the animatoor image-effects and frame-capture pipeline.

This file gives a shallow embedding, in Lean 4, of the pixel algorithms and
the export-pipeline control flow of the repository (dithering, nearest-color
resolution with its bounded module-level cache, pixelation, ASCII cell
mapping, and the capture/process/encode phases), and proves or refutes the
stated behavioural properties.  JavaScript numbers are modelled as exact
rationals, JavaScript integers as Int/Nat; typed-array stores carry the
clamp-and-round semantics of Uint8ClampedArray where the code relies on it.
-/

namespace Animatoor

/-- An RGB color with integer 8-bit channels (the code passes plain numbers;
channel values produced by the algorithms are integers in [0, 255]). -/
structure RGB where
  r : ℤ
  g : ℤ
  b : ℤ
deriving DecidableEq, Repr

/-- Squared Euclidean RGB distance, as computed inline by findNearestColor:
`(r - pr) ** 2 + (g - pg) ** 2 + (b - pb) ** 2`. -/
def distSq (c p : RGB) : ℤ :=
  (c.r - p.r) ^ 2 + (c.g - p.g) ^ 2 + (c.b - p.b) ^ 2

/-- One iteration of the `for (const [pr, pg, pb] of palette)` loop of
findNearestColor.  The accumulator carries `nearest` and `minDist`;
`minDist = Infinity` before the first comparison is the `none` case, in which
the comparison `dist < Infinity` always succeeds. -/
def fncStep (c : RGB) (acc : RGB × Option ℤ) (p : RGB) : RGB × Option ℤ :=
  match acc.2 with
  | none => (p, some (distSq c p))
  | some m => if distSq c p < m then (p, some (distSq c p)) else acc

/-- The uncached nearest-color search (dithering.ts, plain version):
`let minDist = Infinity; let nearest = palette[0];` then the loop above.
For an empty palette the source would return `undefined`; we return a default
color, and every theorem about this function assumes a non-empty palette. -/
def findNearestColor (c : RGB) (palette : List RGB) : RGB :=
  (palette.foldl (fncStep c) (palette.headD ⟨0, 0, 0⟩, none)).1

/-- The module-level color cache: a JavaScript `Map` from packed color key to
resolved color.  A `Map` iterates in insertion order, so it is modelled as an
association list whose head is the oldest (first-inserted) entry; keys are
unique because the code only inserts keys that missed the lookup. -/
abbrev ColorCache := List (ℤ × RGB)

/-- The cache key `(r << 16) | (g << 8) | b` (for channels in [0, 255] the
shifts and or are exactly this arithmetic). -/
def cacheKey (c : RGB) : ℤ :=
  c.r * 65536 + c.g * 256 + c.b

/-- Lookup of a key in the cache (`colorCache.get`): the entry with this key,
if present.  A JS Map lookup does not reorder entries. -/
def lookupKey (k : ℤ) : ColorCache → Option RGB
  | [] => none
  | e :: rest => if e.1 = k then some e.2 else lookupKey k rest

/-- The configured cache capacity `MAX_CACHE_SIZE = 8192`. -/
def MAX_CACHE_SIZE : ℕ := 8192

/-- The cached nearest-color search (dithering.ts, cached version):
check the cache; on a miss run the palette scan, then, if the cache is at
capacity, delete `colorCache.keys().next().value` — the FIRST-INSERTED key,
i.e. the head of the insertion-ordered list — and insert the new entry at the
end.  Returns the resolved color together with the updated cache. -/
def findNearestColorCached (c : RGB) (palette : List RGB) (cache : ColorCache) :
    RGB × ColorCache :=
  let key := cacheKey c
  match lookupKey key cache with
  | some v => (v, cache)
  | none =>
    let nearest := findNearestColor c palette
    let cache1 := if MAX_CACHE_SIZE ≤ cache.length then cache.tail else cache
    (nearest, cache1 ++ [(key, nearest)])

/-- Run a sequence of cached resolutions, threading the cache. -/
def resolveAll (calls : List (RGB × List RGB)) (cache : ColorCache) : ColorCache :=
  calls.foldl (fun cc call => (findNearestColorCached call.1 call.2 cc).2) cache

/-- The result is the first palette entry attaining the minimal squared
distance: everything before it is strictly farther, everything after it is no
closer. -/
def IsFirstNearest (c : RGB) (palette : List RGB) (res : RGB) : Prop :=
  ∃ l₁ l₂, palette = l₁ ++ res :: l₂ ∧
    (∀ x ∈ l₁, distSq c res < distSq c x) ∧
    (∀ x ∈ l₂, distSq c res ≤ distSq c x)

/-- Invariant of the findNearestColor loop once `minDist` is finite: the fold
either keeps the incoming best (and nothing in the rest is closer), or
switches to the first strictly closer element of the rest. -/
lemma foldl_fncStep_spec (c : RGB) (l : List RGB) (best : RGB) :
    ∃ res m, l.foldl (fncStep c) (best, some (distSq c best)) = (res, some m) ∧
      m = distSq c res ∧
      ((res = best ∧ ∀ x ∈ l, distSq c best ≤ distSq c x) ∨
        (∃ l₁ l₂, l = l₁ ++ res :: l₂ ∧ distSq c res < distSq c best ∧
          (∀ x ∈ l₁, distSq c res < distSq c x) ∧
          (∀ x ∈ l₂, distSq c res ≤ distSq c x))) := by
  induction l generalizing best with
  | nil =>
    exact ⟨best, distSq c best, rfl, rfl, Or.inl ⟨rfl, by simp⟩⟩
  | cons p l ih =>
    by_cases hp : distSq c p < distSq c best
    · have hstep : fncStep c (best, some (distSq c best)) p = (p, some (distSq c p)) := by
        simp [fncStep, hp]
      obtain ⟨res, m, hfold, hm, hcases⟩ := ih p
      refine ⟨res, m, ?_, hm, ?_⟩
      · simpa [List.foldl_cons, hstep] using hfold
      · rcases hcases with ⟨hres, hall⟩ | ⟨l₁, l₂, hsplit, hlt, h₁, h₂⟩
        · subst hres
          exact Or.inr ⟨[], l, by simp, hp, by simp, hall⟩
        · refine Or.inr ⟨p :: l₁, l₂, by simp [hsplit], lt_trans hlt hp, ?_, h₂⟩
          intro x hx
          rcases List.mem_cons.mp hx with hx | hx
          · subst hx; exact hlt
          · exact h₁ x hx
    · have hstep : fncStep c (best, some (distSq c best)) p = (best, some (distSq c best)) := by
        simp [fncStep, hp]
      obtain ⟨res, m, hfold, hm, hcases⟩ := ih best
      refine ⟨res, m, ?_, hm, ?_⟩
      · simpa [List.foldl_cons, hstep] using hfold
      · rcases hcases with ⟨hres, hall⟩ | ⟨l₁, l₂, hsplit, hlt, h₁, h₂⟩
        · refine Or.inl ⟨hres, ?_⟩
          intro x hx
          rcases List.mem_cons.mp hx with hx | hx
          · subst hx; exact le_of_not_lt hp
          · exact hall x hx
        · refine Or.inr ⟨p :: l₁, l₂, by simp [hsplit], hlt, ?_, h₂⟩
          intro x hx
          rcases List.mem_cons.mp hx with hx | hx
          · subst hx; exact lt_of_lt_of_le hlt (le_of_not_lt hp)
          · exact h₁ x hx

/-- On any non-empty palette, the uncached search returns the first entry of
minimal squared distance. -/
lemma findNearestColor_isFirstNearest (c : RGB) (p : RGB) (ps : List RGB) :
    IsFirstNearest c (p :: ps) (findNearestColor c (p :: ps)) := by
  have hinit : fncStep c (p, none) p = (p, some (distSq c p)) := rfl
  obtain ⟨res, m, hfold, hm, hcases⟩ := foldl_fncStep_spec c ps p
  have hval : findNearestColor c (p :: ps) = res := by
    simp only [findNearestColor, List.headD, List.foldl_cons, hinit]
    rw [hfold]
  rw [hval]
  rcases hcases with ⟨hres, hall⟩ | ⟨l₁, l₂, hsplit, hlt, h₁, h₂⟩
  · subst hres
    exact ⟨[], ps, by simp, by simp, hall⟩
  · refine ⟨p :: l₁, l₂, by simp [hsplit], ?_, h₂⟩
    intro x hx
    rcases List.mem_cons.mp hx with hx | hx
    · subst hx; exact hlt
    · exact h₁ x hx

/-- The first-nearest element is a member of the palette and minimizes the
squared distance over the whole palette. -/
lemma IsFirstNearest.mem_and_min {c : RGB} {palette : List RGB} {res : RGB}
    (h : IsFirstNearest c palette res) :
    res ∈ palette ∧ ∀ q ∈ palette, distSq c res ≤ distSq c q := by
  obtain ⟨l₁, l₂, hsplit, h₁, h₂⟩ := h
  subst hsplit
  constructor
  · simp
  · intro q hq
    rcases List.mem_append.mp hq with hq | hq
    · exact le_of_lt (h₁ q hq)
    · rcases List.mem_cons.mp hq with hq | hq
      · subst hq; exact le_refl _
      · exact h₂ q hq

/-- On a single-entry palette the search returns that entry. -/
lemma findNearestColor_single (c p : RGB) :
    findNearestColor c [p] = p := rfl

/-- C1.  The claim as stated is false: the module-level cache is keyed only by
the packed input color, not by the palette, so a call made after an earlier
call with a DIFFERENT palette populated the cache can return a stale entry.
Concretely: resolving (0,0,0) against the palette [(255,255,255)] caches
(255,255,255) under key 0; a subsequent resolution of (0,0,0) against the
palette [(0,0,0)] hits that cache entry and returns (255,255,255), whose
squared distance 195075 to the input is not ≤ the distance 0 of the palette
entry (0,0,0). -/
theorem C1_cross_palette_counterexample :
    (RGB.mk 0 0 0) ∈ ([⟨0, 0, 0⟩] : List RGB) ∧
    (findNearestColorCached ⟨0, 0, 0⟩ [⟨0, 0, 0⟩]
        (findNearestColorCached ⟨0, 0, 0⟩ [⟨255, 255, 255⟩] []).2).1
      = ⟨255, 255, 255⟩ ∧
    ¬ distSq ⟨0, 0, 0⟩
        (findNearestColorCached ⟨0, 0, 0⟩ [⟨0, 0, 0⟩]
          (findNearestColorCached ⟨0, 0, 0⟩ [⟨255, 255, 255⟩] []).2).1
        ≤ distSq ⟨0, 0, 0⟩ ⟨0, 0, 0⟩ := by
  refine ⟨by decide, by decide, by decide⟩

/-- C1 (amended).  On every call whose cache contains, for this input's key,
only a value equal to the nearest color in the CURRENT palette — in
particular on every call sequence that uses a single palette throughout,
since then every cached value was computed against that palette, and on any
call that misses the cache — the cached resolver returns a palette entry of
minimal squared Euclidean distance, ties resolved in favor of the
first-encountered (insertion-order) entry. -/
theorem C1_nearest_resolution_amended (c : RGB) (palette : List RGB)
    (cache : ColorCache) (hne : palette ≠ [])
    (hcache : ∀ v : RGB, lookupKey (cacheKey c) cache = some v →
      v = findNearestColor c palette) :
    (findNearestColorCached c palette cache).1 ∈ palette ∧
    (∀ q ∈ palette,
      distSq c (findNearestColorCached c palette cache).1 ≤ distSq c q) ∧
    IsFirstNearest c palette (findNearestColorCached c palette cache).1 := by
  have hres : (findNearestColorCached c palette cache).1 = findNearestColor c palette := by
    cases h : lookupKey (cacheKey c) cache with
    | none => simp [findNearestColorCached, h]
    | some v =>
      have := hcache v h
      simp [findNearestColorCached, h, this]
  rw [hres]
  obtain ⟨p, ps, rfl⟩ := List.exists_cons_of_ne_nil hne
  have hfn := findNearestColor_isFirstNearest c p ps
  exact ⟨hfn.mem_and_min.1, hfn.mem_and_min.2, hfn⟩

/-- Witness for C1 (amended): a concrete resolution of (10,10,10) against the
two-color palette [(0,0,0), (255,255,255)] with an empty cache. -/
theorem C1_nearest_resolution_amended_witness :
    (([⟨0, 0, 0⟩, ⟨255, 255, 255⟩] : List RGB) ≠ []) ∧
    ((findNearestColorCached ⟨10, 10, 10⟩ [⟨0, 0, 0⟩, ⟨255, 255, 255⟩] []).1
        ∈ ([⟨0, 0, 0⟩, ⟨255, 255, 255⟩] : List RGB) ∧
      (∀ q ∈ ([⟨0, 0, 0⟩, ⟨255, 255, 255⟩] : List RGB),
        distSq ⟨10, 10, 10⟩
            (findNearestColorCached ⟨10, 10, 10⟩ [⟨0, 0, 0⟩, ⟨255, 255, 255⟩] []).1
          ≤ distSq ⟨10, 10, 10⟩ q) ∧
      IsFirstNearest ⟨10, 10, 10⟩ [⟨0, 0, 0⟩, ⟨255, 255, 255⟩]
        (findNearestColorCached ⟨10, 10, 10⟩ [⟨0, 0, 0⟩, ⟨255, 255, 255⟩] []).1) :=
  ⟨by decide,
    C1_nearest_resolution_amended ⟨10, 10, 10⟩ [⟨0, 0, 0⟩, ⟨255, 255, 255⟩] []
      (by decide) (fun v h => nomatch h)⟩

/-! ### The cache bound and the eviction policy -/

/-- A lookup fails exactly when no entry carries the key. -/
lemma lookupKey_eq_none_iff (k : ℤ) (cache : ColorCache) :
    lookupKey k cache = none ↔ ∀ e ∈ cache, e.1 ≠ k := by
  induction cache with
  | nil => simp [lookupKey]
  | cons e rest ih =>
    by_cases he : e.1 = k
    · simp [lookupKey, he]
    · simp [lookupKey, he, ih]

/-- One cached resolution keeps the cache size within the bound. -/
lemma findNearestColorCached_length_le (c : RGB) (pal : List RGB)
    (cache : ColorCache) (h : cache.length ≤ MAX_CACHE_SIZE) :
    (findNearestColorCached c pal cache).2.length ≤ MAX_CACHE_SIZE := by
  cases hl : lookupKey (cacheKey c) cache with
  | some v => simpa [findNearestColorCached, hl] using h
  | none =>
    by_cases hcap : MAX_CACHE_SIZE ≤ cache.length
    · have hform : (findNearestColorCached c pal cache).2
          = cache.tail ++ [(cacheKey c, findNearestColor c pal)] := by
        simp [findNearestColorCached, hl, hcap]
      rw [hform]
      have htail : cache.tail.length = cache.length - 1 := List.length_tail cache
      have hMAX : 1 ≤ MAX_CACHE_SIZE := by norm_num [MAX_CACHE_SIZE]
      simp only [List.length_append, List.length_cons, List.length_nil, htail]
      omega
    · have hform : (findNearestColorCached c pal cache).2
          = cache ++ [(cacheKey c, findNearestColor c pal)] := by
        simp [findNearestColorCached, hl, hcap]
      rw [hform]
      simp only [List.length_append, List.length_cons, List.length_nil]
      omega

/-- Any sequence of cached resolutions keeps the cache size within the bound. -/
lemma resolveAll_length_le (calls : List (RGB × List RGB)) (cache : ColorCache)
    (h : cache.length ≤ MAX_CACHE_SIZE) :
    (resolveAll calls cache).length ≤ MAX_CACHE_SIZE := by
  induction calls generalizing cache with
  | nil => simpa [resolveAll] using h
  | cons call rest ih =>
    have hstep := findNearestColorCached_length_le call.1 call.2 cache h
    simpa [resolveAll] using ih _ hstep

/-- A call that misses the cache recomputes the palette scan. -/
lemma findNearestColorCached_miss (c : RGB) (pal : List RGB) (cache : ColorCache)
    (h : lookupKey (cacheKey c) cache = none) :
    (findNearestColorCached c pal cache).1 = findNearestColor c pal := by
  simp [findNearestColorCached, h]

/-- Shape of a cache hit: the cached value is returned, cache unchanged. -/
lemma findNearestColorCached_hit (c : RGB) (pal : List RGB) (cache : ColorCache)
    (v : RGB) (h : lookupKey (cacheKey c) cache = some v) :
    findNearestColorCached c pal cache = (v, cache) := by
  simp [findNearestColorCached, h]

/-- Shape of a cache miss at capacity: the head (first-inserted) entry is
evicted and the new one appended. -/
lemma findNearestColorCached_miss_at_capacity (c : RGB) (pal : List RGB)
    (cache : ColorCache) (h : lookupKey (cacheKey c) cache = none)
    (hcap : MAX_CACHE_SIZE ≤ cache.length) :
    findNearestColorCached c pal cache
      = (findNearestColor c pal,
          cache.tail ++ [(cacheKey c, findNearestColor c pal)]) := by
  simp [findNearestColorCached, h, hcap]

/-- C9.  Over every call sequence started from the empty module cache the
cache size never exceeds MAX_CACHE_SIZE = 8192 (arbitrary sequences cover
every point of any longer sequence), and a key that is absent from the cache
— in particular a previously evicted key — is re-resolved by recomputing the
full palette scan, which returns the same answer as the original resolution
against the same palette. -/
theorem C9_cache_bound_and_recomputation (calls : List (RGB × List RGB))
    (c : RGB) (pal : List RGB) (cache : ColorCache)
    (hev : lookupKey (cacheKey c) cache = none) :
    (resolveAll calls []).length ≤ MAX_CACHE_SIZE ∧
    (findNearestColorCached c pal cache).1 = findNearestColor c pal :=
  ⟨resolveAll_length_le calls [] (by simp),
    findNearestColorCached_miss c pal cache hev⟩

/-- Witness for C9: a one-call sequence and a resolution from a cache that
does not contain the key of (4,5,6). -/
theorem C9_cache_bound_and_recomputation_witness :
    lookupKey (cacheKey ⟨4, 5, 6⟩) [] = none ∧
    ((resolveAll [(⟨1, 2, 3⟩, [⟨0, 0, 0⟩])] []).length ≤ MAX_CACHE_SIZE ∧
      (findNearestColorCached ⟨4, 5, 6⟩ [⟨0, 0, 0⟩] []).1
        = findNearestColor ⟨4, 5, 6⟩ [⟨0, 0, 0⟩]) :=
  ⟨rfl, C9_cache_bound_and_recomputation [(⟨1, 2, 3⟩, [⟨0, 0, 0⟩])]
    ⟨4, 5, 6⟩ [⟨0, 0, 0⟩] [] rfl⟩

/-! ### The eviction policy is insertion-order (FIFO), not LRU -/

/-- The i-th of a family of distinct in-range colors: (i / 256, i mod 256, 0),
whose packed cache key is 256·i. -/
def mkC (i : ℕ) : RGB := ⟨(i / 256 : ℕ), (i % 256 : ℕ), 0⟩

/-- The single-color palette used for the eviction run. -/
def blackPal : List RGB := [⟨0, 0, 0⟩]

lemma cacheKey_mkC (i : ℕ) : cacheKey (mkC i) = 256 * (i : ℤ) := by
  simp only [cacheKey, mkC]
  push_cast
  omega

/-- Filling the cache with fresh, pairwise-distinct keys while below capacity
simply appends the entries in call order. -/
lemma resolveAll_fresh (cs : List RGB) (pal : List RGB) (cache : ColorCache)
    (hnodup : (cs.map cacheKey).Nodup)
    (hfresh : ∀ c ∈ cs, lookupKey (cacheKey c) cache = none)
    (hlen : cache.length + cs.length ≤ MAX_CACHE_SIZE) :
    resolveAll (cs.map (fun c => (c, pal))) cache
      = cache ++ cs.map (fun c => (cacheKey c, findNearestColor c pal)) := by
  induction cs generalizing cache with
  | nil => simp [resolveAll]
  | cons c cs ih =>
    have hmiss : lookupKey (cacheKey c) cache = none := hfresh c (by simp)
    have hcap : ¬ MAX_CACHE_SIZE ≤ cache.length := by
      simp only [List.length_cons] at hlen
      omega
    have hstep : (findNearestColorCached c pal cache).2
        = cache ++ [(cacheKey c, findNearestColor c pal)] := by
      simp [findNearestColorCached, hmiss, hcap]
    have hfresh' : ∀ c' ∈ cs,
        lookupKey (cacheKey c') (cache ++ [(cacheKey c, findNearestColor c pal)]) = none := by
      intro c' hc'
      rw [lookupKey_eq_none_iff]
      intro e he
      rcases List.mem_append.mp he with he | he
      · exact (lookupKey_eq_none_iff _ _).mp (hfresh c' (by simp [hc'])) e he
      · rcases List.mem_singleton.mp he with rfl
        show cacheKey c ≠ cacheKey c'
        intro hkey
        have hne' : cacheKey c ∉ cs.map cacheKey := by
          have := hnodup
          simp only [List.map_cons, List.nodup_cons] at this
          exact this.1
        exact hne' (by rw [hkey]; exact List.mem_map_of_mem cacheKey hc')
    have hlen' : (cache ++ [(cacheKey c, findNearestColor c pal)]).length + cs.length
        ≤ MAX_CACHE_SIZE := by
      simp only [List.length_append, List.length_cons, List.length_nil] at hlen ⊢
      omega
    have hnodup' : (cs.map cacheKey).Nodup := by
      simp only [List.map_cons, List.nodup_cons] at hnodup
      exact hnodup.2
    calc resolveAll ((c :: cs).map (fun c => (c, pal))) cache
        = resolveAll (cs.map (fun c => (c, pal)))
            (cache ++ [(cacheKey c, findNearestColor c pal)]) := by
          simp [resolveAll, hstep]
      _ = cache ++ (c :: cs).map (fun c => (cacheKey c, findNearestColor c pal)) := by
          rw [ih _ hnodup' hfresh' hlen']
          simp

/-- The insertion-ordered cache contents after resolving the 8192 distinct
colors mkC 0, …, mkC 8191 in order against blackPal from the empty module
cache (proved below): entry i carries key 256·i. -/
def evictFullCache : ColorCache :=
  (List.range 8192).map (fun i : ℕ => ((256 * (i : ℤ)), RGB.mk 0 0 0))

lemma evictRunCache1_eq :
    resolveAll (((List.range 8192).map mkC).map (fun c => (c, blackPal))) []
      = evictFullCache := by
  unfold evictFullCache
  rw [resolveAll_fresh]
  · rw [List.map_map]
    simp only [List.nil_append]
    apply List.map_congr_left
    intro i _
    simp [Function.comp, cacheKey_mkC, blackPal, findNearestColor_single]
  · rw [List.map_map]
    have hfn : (cacheKey ∘ mkC) = fun i : ℕ => 256 * (i : ℤ) := by
      funext i
      simp [Function.comp, cacheKey_mkC]
    rw [hfn]
    refine List.Nodup.map ?_ (List.nodup_range _)
    intro a b hab
    have hab' : (a : ℤ) = (b : ℤ) :=
      mul_left_cancel₀ (by norm_num : (256 : ℤ) ≠ 0) hab
    exact_mod_cast hab'
  · intro c _
    rfl
  · simp only [List.length_nil, List.length_map, List.length_range, MAX_CACHE_SIZE]
    omega

lemma lookupKey_mkC0_evictFullCache :
    lookupKey (cacheKey (mkC 0)) evictFullCache = some ⟨0, 0, 0⟩ := by
  unfold evictFullCache
  have h8192 : (8192 : ℕ) = 8191 + 1 := by norm_num
  rw [h8192, List.range_succ_eq_map, List.map_cons]
  have hk : cacheKey (mkC 0) = 0 := by rw [cacheKey_mkC]; norm_num
  simp [lookupKey, hk]

lemma evictStep3_eq :
    (findNearestColorCached (mkC 8192) blackPal evictFullCache).2
      = (List.range 8191).map (fun j : ℕ => ((256 * ((j : ℤ) + 1)), RGB.mk 0 0 0))
        ++ [((256 * 8192 : ℤ), RGB.mk 0 0 0)] := by
  have hmiss : lookupKey (cacheKey (mkC 8192)) evictFullCache = none := by
    unfold evictFullCache
    rw [lookupKey_eq_none_iff]
    intro e he
    rcases List.mem_map.mp he with ⟨i, hi, rfl⟩
    have hi' := List.mem_range.mp hi
    rw [cacheKey_mkC]
    simp only [ne_eq]
    intro h
    omega
  have hcap : MAX_CACHE_SIZE ≤ evictFullCache.length := by
    unfold evictFullCache
    simp only [List.length_map, List.length_range, MAX_CACHE_SIZE]
    omega
  rw [findNearestColorCached_miss_at_capacity (mkC 8192) blackPal evictFullCache hmiss hcap]
  unfold evictFullCache
  have h8192 : (8192 : ℕ) = 8191 + 1 := by norm_num
  rw [h8192, List.range_succ_eq_map, List.map_cons, List.tail_cons, List.map_map]
  have hk : cacheKey (mkC 8192) = 256 * 8192 := by rw [cacheKey_mkC]; norm_num
  rw [hk]
  have hval : findNearestColor (mkC 8192) blackPal = ⟨0, 0, 0⟩ :=
    findNearestColor_single _ _
  rw [hval]
  have hmapeq : (List.range 8191).map
        ((fun i : ℕ => ((256 * (i : ℤ)), RGB.mk 0 0 0)) ∘ Nat.succ)
      = (List.range 8191).map
        (fun j : ℕ => ((256 * ((j : ℤ) + 1)), RGB.mk 0 0 0)) := by
    apply List.map_congr_left
    intro j _
    simp only [Function.comp_apply, Nat.succ_eq_add_one]
    push_cast
    ring_nf
  rw [hmapeq]

/-- C4.  The nearest-color cache does not behave as an LRU cache: a hit does
NOT mark the entry most-recently-used (the cache is returned unchanged), and
on a miss at capacity the FIRST-INSERTED key is evicted, even when it is the
most recently used one.  Concretely: resolving the 8192 distinct colors
mkC 0 … mkC 8191 from the empty cache yields evictFullCache (last conjunct);
re-resolving mkC 0 is a hit that leaves the cache unchanged (first conjunct);
then resolving the fresh color mkC 8192 at capacity evicts key(mkC 0) — which
an LRU cache would have retained in preference to key(mkC 1), the actual
least-recently-used entry, which survives (middle conjuncts). -/
theorem C4_eviction_is_fifo_not_lru :
    findNearestColorCached (mkC 0) blackPal evictFullCache
      = (⟨0, 0, 0⟩, evictFullCache) ∧
    lookupKey (cacheKey (mkC 0))
      (findNearestColorCached (mkC 8192) blackPal evictFullCache).2 = none ∧
    lookupKey (cacheKey (mkC 1))
      (findNearestColorCached (mkC 8192) blackPal evictFullCache).2 = some ⟨0, 0, 0⟩ ∧
    resolveAll (((List.range 8192).map mkC).map (fun c => (c, blackPal))) []
      = evictFullCache := by
  refine ⟨findNearestColorCached_hit (mkC 0) blackPal evictFullCache ⟨0, 0, 0⟩
    lookupKey_mkC0_evictFullCache, ?_, ?_, evictRunCache1_eq⟩
  · rw [evictStep3_eq, lookupKey_eq_none_iff]
    intro e he
    have hk0 : cacheKey (mkC 0) = 0 := by rw [cacheKey_mkC]; norm_num
    rw [hk0]
    rcases List.mem_append.mp he with he | he
    · rcases List.mem_map.mp he with ⟨j, _, rfl⟩
      simp only [ne_eq]
      intro h
      omega
    · rcases List.mem_singleton.mp he with rfl
      norm_num
  · rw [evictStep3_eq]
    have h8191 : (8191 : ℕ) = 8190 + 1 := by norm_num
    rw [h8191, List.range_succ_eq_map, List.map_cons]
    have hk1 : cacheKey (mkC 1) = 256 := by rw [cacheKey_mkC]; norm_num
    simp [lookupKey, hk1]

/-! ### Luminance and the ASCII cell mapper -/

/-- getLuminance of the plain ASCII renderer:
`(0.2126 * r + 0.7152 * g + 0.0722 * b) / 255` (decimal literals modelled as
exact rationals). -/
def getLuminance (r g b : ℚ) : ℚ :=
  (0.2126 * r + 0.7152 * g + 0.0722 * b) / 255

/-- getLuminance of the optimized ASCII renderer:
`0.0083 * r + 0.0280 * g + 0.0002 * b`, with a comment claiming these are the
BT.709 coefficients with the division by 255 precomputed. -/
def getLuminanceOpt (r g b : ℚ) : ℚ :=
  0.0083 * r + 0.0280 * g + 0.0002 * b

/-- C3.  The optimized ASCII renderer does not compute the Rec. 709
luminance: its constants 0.0083, 0.0280, 0.0002 are not 0.2126/255,
0.7152/255, 0.0722/255 (they are roughly ten times too large on R and G).
On white (255,255,255) the plain version yields 1 as the claim states, but
the optimized version — the one the exporter uses — yields 9.3075. -/
theorem C3_luminance_constants_bug :
    getLuminance 255 255 255 = 1 ∧
    getLuminanceOpt 255 255 255 = 9.3075 ∧
    ∃ r g b : ℚ, getLuminanceOpt r g b ≠ (0.2126 * r + 0.7152 * g + 0.0722 * b) / 255 :=
  ⟨by norm_num [getLuminance], by norm_num [getLuminanceOpt],
    255, 255, 255, by norm_num [getLuminanceOpt]⟩

/-- Truncation toward zero, the JavaScript `| 0` coercion (for values in
int32 range). -/
def jsTrunc (q : ℚ) : ℤ :=
  if q < 0 then -(⌊-q⌋) else ⌊q⌋

/-- The gamma block of imageDataToASCIICells (optimized):
`logGamma = gamma !== 1.0 ? 1.0 / gamma : 1.0` and then
`if (logGamma !== 1.0 && brightness > 0) brightness = Math.pow(brightness, logGamma)`.
Math.pow is transcendental, so it is modelled by an explicit parameter
`qpow` standing for the function x ↦ Math.pow(x, logGamma); the branch
structure is the source's. -/
def applyGammaStep (qpow : ℚ → ℚ) (gamma b : ℚ) : ℚ :=
  if (if gamma ≠ 1 then 1 / gamma else 1) ≠ 1 ∧ 0 < b then qpow b else b

/-- The contrast block:
`if (contrast !== 1) brightness = Math.max(0, Math.min(1, (brightness - 0.5) * contrast + 0.5))`. -/
def applyContrastStep (contrast b : ℚ) : ℚ :=
  if contrast ≠ 1 then max 0 (min 1 ((b - 0.5) * contrast + 0.5)) else b

/-- The invert block: `if (invert) brightness = 1 - brightness`. -/
def applyInvertStep (invert : Bool) (b : ℚ) : ℚ :=
  if invert then 1 - b else b

/-- Brightness of a cell after the gamma, contrast and invert blocks, as a
function of the sampled pre-pipeline brightness b0. -/
def cellBrightness (qpow : ℚ → ℚ) (gamma contrast : ℚ) (invert : Bool) (b0 : ℚ) : ℚ :=
  applyInvertStep invert (applyContrastStep contrast (applyGammaStep qpow gamma b0))

/-- The selected charset index:
`charIndex = brightness * (charsLen - 1) | 0`. -/
def charIndexOf (qpow : ℚ → ℚ) (gamma contrast : ℚ) (invert : Bool)
    (charsLen : ℕ) (b0 : ℚ) : ℤ :=
  jsTrunc (cellBrightness qpow gamma contrast invert b0 * ((charsLen : ℚ) - 1))

/-- Indexing `chars[i]`: some character inside [0, length), undefined (none)
outside. -/
def charAt (chars : List Char) (i : ℤ) : Option Char :=
  if 0 ≤ i then chars.get? i.toNat else none

/-- The standard charset, ordered darkest to brightest (10 characters). -/
def stdCharset : List Char :=
  [' ', '.', ':', '-', '=', '+', '*', '#', '%', '@']

/-- C8.  The claim as stated is false: with the invert option fixed to true
(a legal fixed value of the held-fixed options), increasing the sampled
brightness strictly DEcreases the selected index.  Concretely with gamma 1,
contrast 1, invert true and the 10-character standard charset, brightness 0
selects index 9 and brightness 1 selects index 0. -/
theorem C8_invert_counterexample :
    (0 : ℚ) ≤ 1 ∧
    charIndexOf (fun x => x) 1 1 true 10 0 = 9 ∧
    charIndexOf (fun x => x) 1 1 true 10 1 = 0 ∧
    charIndexOf (fun x => x) 1 1 true 10 1 < charIndexOf (fun x => x) 1 1 true 10 0 := by
  have h0 : charIndexOf (fun x => x) 1 1 true 10 0 = 9 := by
    norm_num [charIndexOf, cellBrightness, applyInvertStep, applyContrastStep,
      applyGammaStep, jsTrunc]
  have h1 : charIndexOf (fun x => x) 1 1 true 10 1 = 0 := by
    norm_num [charIndexOf, cellBrightness, applyInvertStep, applyContrastStep,
      applyGammaStep, jsTrunc]
  exact ⟨by norm_num, h0, h1, by rw [h0, h1]; norm_num⟩

lemma jsTrunc_mono {q r : ℚ} (h : q ≤ r) : jsTrunc q ≤ jsTrunc r := by
  unfold jsTrunc
  by_cases hq : q < 0
  · by_cases hr : r < 0
    · simp only [hq, hr, if_pos]
      exact neg_le_neg (Int.floor_le_floor (neg_le_neg h))
    · simp only [hq, if_pos, hr, if_neg, not_false_iff]
      have h1 : (0 : ℤ) ≤ ⌊-q⌋ := Int.floor_nonneg.mpr (by linarith)
      have h2 : (0 : ℤ) ≤ ⌊r⌋ := Int.floor_nonneg.mpr (by linarith [not_lt.mp hr])
      omega
  · have hr : ¬ r < 0 := fun hr => hq (lt_of_le_of_lt h hr)
    simp only [hq, hr, if_neg, not_false_iff]
    exact Int.floor_le_floor h

lemma applyGammaStep_mono (qpow : ℚ → ℚ) (gamma : ℚ) {b₁ b₂ : ℚ}
    (hq : ∀ x y : ℚ, 0 < x → x ≤ y → qpow x ≤ qpow y)
    (hq0 : ∀ x : ℚ, 0 < x → 0 ≤ qpow x)
    (hb1 : 0 ≤ b₁) (hb : b₁ ≤ b₂) :
    applyGammaStep qpow gamma b₁ ≤ applyGammaStep qpow gamma b₂ := by
  unfold applyGammaStep
  by_cases h1 : 0 < b₁
  · have h2 : 0 < b₂ := lt_of_lt_of_le h1 hb
    by_cases hL : (if gamma ≠ 1 then 1 / gamma else 1) ≠ 1
    · rw [if_pos ⟨hL, h1⟩, if_pos ⟨hL, h2⟩]
      exact hq b₁ b₂ h1 hb
    · rw [if_neg (fun hc => hL hc.1), if_neg (fun hc => hL hc.1)]
      exact hb
  · have hb₁0 : b₁ = 0 := le_antisymm (not_lt.mp h1) hb1
    subst hb₁0
    rw [if_neg (fun hc => h1 hc.2)]
    by_cases h2 : (if gamma ≠ 1 then 1 / gamma else 1) ≠ 1 ∧ 0 < b₂
    · rw [if_pos h2]
      exact hq0 b₂ h2.2
    · rw [if_neg h2]
      exact hb

lemma applyContrastStep_mono (contrast : ℚ) {b₁ b₂ : ℚ}
    (hcon : 0 ≤ contrast) (hb : b₁ ≤ b₂) :
    applyContrastStep contrast b₁ ≤ applyContrastStep contrast b₂ := by
  unfold applyContrastStep
  by_cases hc : contrast ≠ 1
  · rw [if_pos hc, if_pos hc]
    refine max_le_max (le_refl 0) (min_le_min (le_refl 1) ?_)
    have := mul_le_mul_of_nonneg_right (sub_le_sub_right hb (0.5 : ℚ)) hcon
    linarith
  · rw [if_neg hc, if_neg hc]
    exact hb

/-- C8 (amended).  With invert fixed to FALSE (and gamma, contrast fixed),
the selected charset index is a monotone non-decreasing function of the
sampled brightness, for any non-negative contrast (the option range is 0–3),
any monotone non-negative gamma map (Math.pow with a positive exponent is
such a map) and any non-empty charset; with invert fixed to true the index is
correspondingly non-increasing (witnessed by the counterexample above). -/
theorem C8_amended_monotonicity (qpow : ℚ → ℚ) (gamma contrast : ℚ)
    (charsLen : ℕ) (b₁ b₂ : ℚ)
    (hq : ∀ x y : ℚ, 0 < x → x ≤ y → qpow x ≤ qpow y)
    (hq0 : ∀ x : ℚ, 0 < x → 0 ≤ qpow x)
    (hcon : 0 ≤ contrast) (hlen : 1 ≤ charsLen)
    (hb1 : 0 ≤ b₁) (hb : b₁ ≤ b₂) :
    charIndexOf qpow gamma contrast false charsLen b₁
      ≤ charIndexOf qpow gamma contrast false charsLen b₂ := by
  unfold charIndexOf
  apply jsTrunc_mono
  have hfac : (0 : ℚ) ≤ (charsLen : ℚ) - 1 := by
    have : (1 : ℚ) ≤ (charsLen : ℚ) := by exact_mod_cast hlen
    linarith
  apply mul_le_mul_of_nonneg_right ?_ hfac
  show cellBrightness qpow gamma contrast false b₁
    ≤ cellBrightness qpow gamma contrast false b₂
  unfold cellBrightness
  have hinv : ∀ b : ℚ, applyInvertStep false b = b := fun _ => rfl
  rw [hinv, hinv]
  exact applyContrastStep_mono contrast hcon
    (applyGammaStep_mono qpow gamma hq hq0 hb1 hb)

/-- Witness for C8 (amended): gamma 1 (so the pow branch is skipped and the
identity stands in for Math.pow), contrast 1, the standard charset, and
brightness values 0 ≤ 1. -/
theorem C8_amended_monotonicity_witness :
    ((0 : ℚ) ≤ 1 ∧ 1 ≤ stdCharset.length ∧ (0 : ℚ) ≤ 0 ∧ (0 : ℚ) ≤ 1) ∧
    charIndexOf (fun x => x) 1 1 false stdCharset.length 0
      ≤ charIndexOf (fun x => x) 1 1 false stdCharset.length 1 :=
  ⟨⟨zero_le_one, by decide, le_refl 0, zero_le_one⟩,
    C8_amended_monotonicity (fun x => x) 1 1 stdCharset.length 0 1
      (fun x y _ hxy => hxy) (fun x hx => le_of_lt hx)
      zero_le_one (by decide) (le_refl 0) zero_le_one⟩

/-- C10.  The safety claim is false on the code: with contrast = 1 and
gamma = 1 (so neither the pow branch nor the clamping contrast branch runs),
a pure white cell gets brightness 9.3075 (from the broken optimized
luminance), which is not in [0, 1]; the selected index is 83, not below the
charset length 10, and indexing the charset there yields undefined. -/
theorem C10_white_cell_char_undefined :
    ¬ (cellBrightness (fun x => x) 1 1 false (getLuminanceOpt 255 255 255) ≤ 1) ∧
    charIndexOf (fun x => x) 1 1 false stdCharset.length
      (getLuminanceOpt 255 255 255) = 83 ∧
    ¬ (charIndexOf (fun x => x) 1 1 false stdCharset.length
        (getLuminanceOpt 255 255 255) < (stdCharset.length : ℤ)) ∧
    charAt stdCharset (charIndexOf (fun x => x) 1 1 false stdCharset.length
      (getLuminanceOpt 255 255 255)) = none := by
  have hidx : charIndexOf (fun x => x) 1 1 false stdCharset.length
      (getLuminanceOpt 255 255 255) = 83 := by
    norm_num [charIndexOf, cellBrightness, applyInvertStep, applyContrastStep,
      applyGammaStep, jsTrunc, getLuminanceOpt, stdCharset]
  refine ⟨?_, hidx, ?_, ?_⟩
  · norm_num [cellBrightness, applyInvertStep, applyContrastStep,
      applyGammaStep, getLuminanceOpt]
  · rw [hidx]
    decide
  · rw [hidx]
    decide

/-! ### Pixelation (pixelation.ts, applyPixelation)

The frame is the ImageData byte list (length width·height·4); the source
mutates it in place, block by block: for each block start (a multiple of
pixelSize below the bounds) it reads the corner pixel's four channels and
broadcasts them to the whole block, clamped at the right/bottom edges.  The
index (y·width + x)·4 + c of channel c of pixel (x, y) is abbreviated pixIdx;
the source's `pixelIndex + 1` etc. are the same numbers pixIdx w x y 1, …. -/

/-- Flat index of channel c of pixel (x, y): `(y * width + x) * 4 + c`. -/
def pixIdx (w x y c : ℕ) : ℕ := (y * w + x) * 4 + c

lemma pixIdx_lt {w h x y c : ℕ} (hx : x < w) (hy : y < h) (hc : c < 4) :
    pixIdx w x y c < w * h * 4 := by
  unfold pixIdx
  have h1 : y * w + x < h * w := by
    calc y * w + x < y * w + w := by omega
      _ = (y + 1) * w := by ring
      _ ≤ h * w := Nat.mul_le_mul_right w (by omega)
  calc (y * w + x) * 4 + c < (y * w + x) * 4 + 4 := by omega
    _ = (y * w + x + 1) * 4 := by ring
    _ ≤ h * w * 4 := Nat.mul_le_mul_right 4 (by omega)
    _ = w * h * 4 := by ring

lemma pixIdx_inj {w x y c x' y' c' : ℕ} (hx : x < w) (hx' : x' < w)
    (hc : c < 4) (hc' : c' < 4)
    (heq : pixIdx w x y c = pixIdx w x' y' c') : x = x' ∧ y = y' ∧ c = c' := by
  unfold pixIdx at heq
  have hpix : y * w + x = y' * w + x' ∧ c = c' := by omega
  have hx0 : (x + y * w) % w = x % w := Nat.add_mul_mod_self_right x y w
  have hx0' : (x' + y' * w) % w = x' % w := Nat.add_mul_mod_self_right x' y' w
  have hxx : x = x' := by
    have h1 : x % w = x := Nat.mod_eq_of_lt hx
    have h2 : x' % w = x' := Nat.mod_eq_of_lt hx'
    have h3 : x + y * w = x' + y' * w := by omega
    rw [h3] at hx0
    omega
  refine ⟨hxx, ?_, hpix.2⟩
  have hw : 0 < w := by omega
  have : y * w = y' * w := by omega
  exact Nat.eq_of_mul_eq_mul_right hw this

/-- Writing the four channels of pixel (x, y):
`data[idx] = r; data[idx+1] = g; data[idx+2] = b; data[idx+3] = a`. -/
def set4 (w x y : ℕ) (r g b a : ℤ) (arr : List ℤ) : List ℤ :=
  ((((arr.set (pixIdx w x y 0) r).set (pixIdx w x y 1) g).set
    (pixIdx w x y 2) b).set (pixIdx w x y 3) a)

/-- Channel selector for the broadcast corner color. -/
def chanVal (r g b a : ℤ) (c : ℕ) : ℤ := [r, g, b, a].getD c 0

/-- The inner `for (bx = 0; bx < blockWidth; bx++)` loop at row y. -/
def writeRow (w x₀ y bw : ℕ) (r g b a : ℤ) (arr : List ℤ) : List ℤ :=
  (List.range bw).foldl (fun acc bx => set4 w (x₀ + bx) y r g b a acc) arr

/-- The `for (by = 0; by < blockHeight; by++)` loop of one block. -/
def writeBlock (w x₀ y₀ bw bh : ℕ) (r g b a : ℤ) (arr : List ℤ) : List ℤ :=
  (List.range bh).foldl (fun acc bi => writeRow w x₀ (y₀ + bi) bw r g b a acc) arr

/-- One block of applyPixelation: read the corner pixel (fast approximation),
compute the clamped block extent, broadcast.  The block is given as
(y₀, x₀). -/
def processBlock (w h p : ℕ) (arr : List ℤ) (blk : ℕ × ℕ) : List ℤ :=
  writeBlock w blk.2 blk.1 (min p (w - blk.2)) (min p (h - blk.1))
    (arr.getD (pixIdx w blk.2 blk.1 0) 0) (arr.getD (pixIdx w blk.2 blk.1 1) 0)
    (arr.getD (pixIdx w blk.2 blk.1 2) 0) (arr.getD (pixIdx w blk.2 blk.1 3) 0)
    arr

/-- The values visited by `for (v = 0; v < limit; v += p)` (p ≥ 1): the
multiples of p below limit, in increasing order. -/
def blockStarts (p limit : ℕ) : List ℕ :=
  (List.range limit).filter (fun v => v % p = 0)

/-- The row-major sequence of block starts: y outer loop, x inner loop. -/
def blockList (w h p : ℕ) : List (ℕ × ℕ) :=
  (blockStarts p h).flatMap (fun y₀ => (blockStarts p w).map (fun x₀ => (y₀, x₀)))

/-- applyPixelation (pixelation.ts): early return when pixelSize ≤ 1,
otherwise broadcast each block's corner pixel over the block, in place. -/
def applyPixelation (data : List ℤ) (w h p : ℕ) : List ℤ :=
  if p ≤ 1 then data
  else (blockList w h p).foldl (processBlock w h p) data

lemma set4_length (w x y : ℕ) (r g b a : ℤ) (arr : List ℤ) :
    (set4 w x y r g b a arr).length = arr.length := by
  simp [set4]

lemma writeRow_length (w x₀ y bw : ℕ) (r g b a : ℤ) (arr : List ℤ) :
    (writeRow w x₀ y bw r g b a arr).length = arr.length := by
  unfold writeRow
  induction bw generalizing arr with
  | zero => simp
  | succ n ih =>
    rw [List.range_succ, List.foldl_append]
    simp only [List.foldl_cons, List.foldl_nil]
    rw [set4_length, ih]

lemma writeBlock_length (w x₀ y₀ bw bh : ℕ) (r g b a : ℤ) (arr : List ℤ) :
    (writeBlock w x₀ y₀ bw bh r g b a arr).length = arr.length := by
  unfold writeBlock
  induction bh generalizing arr with
  | zero => simp
  | succ n ih =>
    rw [List.range_succ, List.foldl_append]
    simp only [List.foldl_cons, List.foldl_nil]
    rw [writeRow_length, ih]

lemma processBlock_length (w h p : ℕ) (arr : List ℤ) (blk : ℕ × ℕ) :
    (processBlock w h p arr blk).length = arr.length := by
  unfold processBlock
  rw [writeBlock_length]

lemma foldl_processBlock_length (w h p : ℕ) (B : List (ℕ × ℕ)) (arr : List ℤ) :
    (B.foldl (processBlock w h p) arr).length = arr.length := by
  induction B generalizing arr with
  | nil => rfl
  | cons blk B ih =>
    rw [List.foldl_cons, ih, processBlock_length]

lemma applyPixelation_length (data : List ℤ) (w h p : ℕ) :
    (applyPixelation data w h p).length = data.length := by
  unfold applyPixelation
  by_cases hp : p ≤ 1
  · rw [if_pos hp]
  · rw [if_neg hp, foldl_processBlock_length]

lemma getD_set_of_ne (l : List ℤ) (v : ℤ) {m n : ℕ} (h : m ≠ n) :
    (l.set m v).getD n 0 = l.getD n 0 := by
  simp [List.getD_eq_getElem?_getD, List.getElem?_set, h]

lemma getD_set_self (l : List ℤ) (v : ℤ) {n : ℕ} (h : n < l.length) :
    (l.set n v).getD n 0 = v := by
  simp [List.getD_eq_getElem?_getD, List.getElem?_set, h]

/-- Reading an untouched pixel through a set4 of a different pixel. -/
lemma getD_set4_of_ne {w h x y tx ty c : ℕ} (hx : x < w) (_hy : y < h)
    (htx : tx < w) (_hty : ty < h) (hc : c < 4)
    (hne : ¬ (tx = x ∧ ty = y)) (r g b a : ℤ) (arr : List ℤ) :
    (set4 w x y r g b a arr).getD (pixIdx w tx ty c) 0
      = arr.getD (pixIdx w tx ty c) 0 := by
  unfold set4
  have hd : ∀ ch : ℕ, ch < 4 → pixIdx w x y ch ≠ pixIdx w tx ty c := by
    intro ch hch heq
    obtain ⟨h1, h2, _⟩ := pixIdx_inj hx htx hch hc heq
    exact hne ⟨h1.symm, h2.symm⟩
  rw [getD_set_of_ne _ _ (hd 3 (by omega)), getD_set_of_ne _ _ (hd 2 (by omega)),
    getD_set_of_ne _ _ (hd 1 (by omega)), getD_set_of_ne _ _ (hd 0 (by omega))]

/-- Reading the pixel just written by set4. -/
lemma getD_set4_self {w h x y c : ℕ} (hx : x < w) (hy : y < h) (hc : c < 4)
    (r g b a : ℤ) (arr : List ℤ) (hlen : arr.length = w * h * 4) :
    (set4 w x y r g b a arr).getD (pixIdx w x y c) 0 = chanVal r g b a c := by
  have hlt : ∀ ch : ℕ, ch < 4 → pixIdx w x y ch < arr.length := by
    intro ch hch
    rw [hlen]
    exact pixIdx_lt hx hy hch
  have hd : ∀ ch ch' : ℕ, ch ≠ ch' → pixIdx w x y ch ≠ pixIdx w x y ch' := by
    intro ch ch' hne heq
    unfold pixIdx at heq
    omega
  unfold set4
  interval_cases c
  · rw [getD_set_of_ne _ _ (hd 3 0 (by omega)), getD_set_of_ne _ _ (hd 2 0 (by omega)),
      getD_set_of_ne _ _ (hd 1 0 (by omega)), getD_set_self _ _ (by simpa using hlt 0 (by omega))]
    rfl
  · rw [getD_set_of_ne _ _ (hd 3 1 (by omega)), getD_set_of_ne _ _ (hd 2 1 (by omega)),
      getD_set_self _ _ (by simpa using hlt 1 (by omega))]
    rfl
  · rw [getD_set_of_ne _ _ (hd 3 2 (by omega)),
      getD_set_self _ _ (by simpa using hlt 2 (by omega))]
    rfl
  · rw [getD_set_self _ _ (by simpa using hlt 3 (by omega))]
    rfl

/-- Reading through one row write: pixels of the written row segment read the
broadcast color, everything else is untouched. -/
lemma getD_writeRow {w h x₀ y bw tx ty c : ℕ} (hbw : x₀ + bw ≤ w) (hy : y < h)
    (htx : tx < w) (hty : ty < h) (hc : c < 4)
    (r g b a : ℤ) (arr : List ℤ) (hlen : arr.length = w * h * 4) :
    (writeRow w x₀ y bw r g b a arr).getD (pixIdx w tx ty c) 0
      = if ty = y ∧ x₀ ≤ tx ∧ tx < x₀ + bw then chanVal r g b a c
        else arr.getD (pixIdx w tx ty c) 0 := by
  induction bw generalizing arr with
  | zero =>
    rw [if_neg (by omega)]
    rfl
  | succ n ih =>
    unfold writeRow
    rw [List.range_succ, List.foldl_append]
    simp only [List.foldl_cons, List.foldl_nil]
    have hlen' : ((List.range n).foldl
        (fun acc bx => set4 w (x₀ + bx) y r g b a acc) arr).length = w * h * 4 := by
      rw [show ((List.range n).foldl (fun acc bx => set4 w (x₀ + bx) y r g b a acc) arr)
          = writeRow w x₀ y n r g b a arr from rfl, writeRow_length, hlen]
    by_cases hsel : ty = y ∧ tx = x₀ + n
    · rw [hsel.1, hsel.2]
      rw [@getD_set4_self w h (x₀ + n) y c (by omega) hy hc r g b a _ hlen']
      rw [if_pos ⟨rfl, by omega, by omega⟩]
    · rw [@getD_set4_of_ne w h (x₀ + n) y tx ty c (by omega) hy htx hty hc
        (fun hcon => hsel ⟨hcon.2, hcon.1⟩) r g b a _]
      rw [show ((List.range n).foldl (fun acc bx => set4 w (x₀ + bx) y r g b a acc) arr)
          = writeRow w x₀ y n r g b a arr from rfl]
      rw [ih (by omega) _ hlen]
      by_cases hin : ty = y ∧ x₀ ≤ tx ∧ tx < x₀ + n
      · rw [if_pos hin, if_pos ⟨hin.1, hin.2.1, by omega⟩]
      · rw [if_neg hin, if_neg (fun hcon => ?_)]
        rcases hcon with ⟨h1, h2, h3⟩
        exact hin ⟨h1, h2, by omega⟩

/-- Reading through one block write. -/
lemma getD_writeBlock {w h x₀ y₀ bw bh tx ty c : ℕ} (hbw : x₀ + bw ≤ w)
    (hbh : y₀ + bh ≤ h) (htx : tx < w) (hty : ty < h) (hc : c < 4)
    (r g b a : ℤ) (arr : List ℤ) (hlen : arr.length = w * h * 4) :
    (writeBlock w x₀ y₀ bw bh r g b a arr).getD (pixIdx w tx ty c) 0
      = if x₀ ≤ tx ∧ tx < x₀ + bw ∧ y₀ ≤ ty ∧ ty < y₀ + bh then chanVal r g b a c
        else arr.getD (pixIdx w tx ty c) 0 := by
  induction bh generalizing arr with
  | zero =>
    rw [if_neg (by omega)]
    rfl
  | succ n ih =>
    unfold writeBlock
    rw [List.range_succ, List.foldl_append]
    simp only [List.foldl_cons, List.foldl_nil]
    have hfold : ((List.range n).foldl
        (fun acc bi => writeRow w x₀ (y₀ + bi) bw r g b a acc) arr)
        = writeBlock w x₀ y₀ bw n r g b a arr := rfl
    have hlen' : ((List.range n).foldl
        (fun acc bi => writeRow w x₀ (y₀ + bi) bw r g b a acc) arr).length
        = w * h * 4 := by
      rw [hfold, writeBlock_length, hlen]
    rw [getD_writeRow hbw (by omega) htx hty hc r g b a _ hlen', hfold,
      ih (by omega) _ hlen]
    by_cases hrow : ty = y₀ + n ∧ x₀ ≤ tx ∧ tx < x₀ + bw
    · rw [if_pos hrow, if_pos ⟨hrow.2.1, hrow.2.2, by omega, by omega⟩]
    · rw [if_neg hrow]
      by_cases hin : x₀ ≤ tx ∧ tx < x₀ + bw ∧ y₀ ≤ ty ∧ ty < y₀ + n
      · rw [if_pos hin, if_pos ⟨hin.1, hin.2.1, hin.2.2.1, by omega⟩]
      · rw [if_neg hin, if_neg (fun hcon => ?_)]
        rcases hcon with ⟨h1, h2, h3, h4⟩
        by_cases hty' : ty = y₀ + n
        · exact hrow ⟨hty', h1, h2⟩
        · exact hin ⟨h1, h2, h3, by omega⟩

/-- A clamped block starting at an aligned x₀ covers exactly the pixels whose
block start p·(tx/p) is x₀. -/
lemma block_covers_iff {p w x₀ tx : ℕ} (hp : 1 ≤ p) (hx₀ : x₀ < w)
    (hxm : x₀ % p = 0) (htx : tx < w) :
    (x₀ ≤ tx ∧ tx < x₀ + min p (w - x₀)) ↔ p * (tx / p) = x₀ := by
  obtain ⟨k, hk⟩ : p ∣ x₀ := Nat.dvd_of_mod_eq_zero hxm
  constructor
  · rintro ⟨h1, h2⟩
    have h2' : tx < x₀ + p := by omega
    have hdiv : tx / p = k := by
      refine Nat.div_eq_of_lt_le ?_ ?_
      · rw [mul_comm, ← hk]
        exact h1
      · rw [add_mul, one_mul, mul_comm k p, ← hk]
        exact h2'
    rw [hdiv, ← hk]
  · intro hpx
    have hle : p * (tx / p) ≤ tx := Nat.mul_div_le tx p
    have hlt : tx < p * (tx / p) + p := by
      have h := Nat.lt_mul_div_succ tx (by omega : 0 < p)
      rw [Nat.mul_add, Nat.mul_one] at h
      exact h
    rw [hpx] at hle hlt
    omega

/-- Reading through one processed block: pixels of that block read the
corner's channel, everything else is untouched. -/
lemma getD_processBlock {w h p x₀ y₀ tx ty c : ℕ} (hp : 1 ≤ p)
    (hx₀ : x₀ < w) (hy₀ : y₀ < h) (hxm : x₀ % p = 0) (hym : y₀ % p = 0)
    (htx : tx < w) (hty : ty < h) (hc : c < 4)
    (arr : List ℤ) (hlen : arr.length = w * h * 4) :
    (processBlock w h p arr (y₀, x₀)).getD (pixIdx w tx ty c) 0
      = if p * (tx / p) = x₀ ∧ p * (ty / p) = y₀
        then arr.getD (pixIdx w x₀ y₀ c) 0
        else arr.getD (pixIdx w tx ty c) 0 := by
  unfold processBlock
  rw [getD_writeBlock (by omega) (by omega) htx hty hc _ _ _ _ _ hlen]
  have hxiff := block_covers_iff hp hx₀ hxm htx
  have hyiff := block_covers_iff hp hy₀ hym hty
  by_cases hcov : p * (tx / p) = x₀ ∧ p * (ty / p) = y₀
  · rw [if_pos ⟨(hxiff.mpr hcov.1).1, (hxiff.mpr hcov.1).2,
      (hyiff.mpr hcov.2).1, (hyiff.mpr hcov.2).2⟩, if_pos hcov]
    unfold chanVal
    interval_cases c <;> rfl
  · rw [if_neg (fun hcon => hcov ⟨hxiff.mp ⟨hcon.1, hcon.2.1⟩,
      hyiff.mp ⟨hcon.2.2.1, hcon.2.2.2⟩⟩), if_neg hcov]

lemma mem_blockStarts_iff {p limit v : ℕ} :
    v ∈ blockStarts p limit ↔ v < limit ∧ v % p = 0 := by
  simp [blockStarts, List.mem_filter, and_comm]

lemma mem_blockList_iff {w h p : ℕ} {blk : ℕ × ℕ} :
    blk ∈ blockList w h p
      ↔ (blk.1 < h ∧ blk.1 % p = 0) ∧ (blk.2 < w ∧ blk.2 % p = 0) := by
  obtain ⟨y₀, x₀⟩ := blk
  simp only [blockList, List.mem_flatMap, List.mem_map, Prod.mk.injEq]
  constructor
  · rintro ⟨a, ha, b, hb, h1, h2⟩
    subst h1; subst h2
    exact ⟨mem_blockStarts_iff.mp ha, mem_blockStarts_iff.mp hb⟩
  · rintro ⟨h1, h2⟩
    exact ⟨y₀, mem_blockStarts_iff.mpr h1, x₀, mem_blockStarts_iff.mpr h2, rfl, rfl⟩

lemma blockList_nodup (w h p : ℕ) : (blockList w h p).Nodup := by
  unfold blockList
  rw [List.nodup_flatMap]
  constructor
  · intro y₀ _
    exact ((List.nodup_range w).filter _).map (fun a b hab => by
      simpa using congrArg Prod.snd hab)
  · have hnd : (blockStarts p h).Nodup := (List.nodup_range h).filter _
    refine List.Pairwise.imp ?_ hnd
    intro a b hab
    intro x hxa hxb
    rcases List.mem_map.mp hxa with ⟨u, _, rfl⟩
    rcases List.mem_map.mp hxb with ⟨v, _, hv⟩
    exact hab (congrArg Prod.fst hv).symm

/-- Folding a nodup list of aligned in-bounds blocks: each pixel whose block
is in the list ends at the ORIGINAL corner value of its block; other pixels
are untouched. -/
lemma foldl_processBlock_getD {w h p : ℕ} (hp : 1 ≤ p)
    (B : List (ℕ × ℕ)) (arr orig : List ℤ)
    (hB : ∀ blk ∈ B, blk.1 < h ∧ blk.1 % p = 0 ∧ blk.2 < w ∧ blk.2 % p = 0)
    (hnodup : B.Nodup)
    (hlen : arr.length = w * h * 4)
    (hagree : ∀ tx ty c, tx < w → ty < h → c < 4 →
      (p * (ty / p), p * (tx / p)) ∈ B →
      arr.getD (pixIdx w tx ty c) 0 = orig.getD (pixIdx w tx ty c) 0)
    (tx ty c : ℕ) (htx : tx < w) (hty : ty < h) (hc : c < 4) :
    (B.foldl (processBlock w h p) arr).getD (pixIdx w tx ty c) 0
      = if (p * (ty / p), p * (tx / p)) ∈ B
        then orig.getD (pixIdx w (p * (tx / p)) (p * (ty / p)) c) 0
        else arr.getD (pixIdx w tx ty c) 0 := by
  induction B generalizing arr with
  | nil =>
    rw [if_neg (by simp)]
    rfl
  | cons blk B ih =>
    obtain ⟨y₀, x₀⟩ := blk
    obtain ⟨hy₀, hym, hx₀, hxm⟩ := hB (y₀, x₀) (by simp)
    dsimp only at hy₀ hym hx₀ hxm
    have hnodup' : B.Nodup := (List.nodup_cons.mp hnodup).2
    have hnotmem : (y₀, x₀) ∉ B := (List.nodup_cons.mp hnodup).1
    have hB' : ∀ blk ∈ B, blk.1 < h ∧ blk.1 % p = 0 ∧ blk.2 < w ∧ blk.2 % p = 0 :=
      fun blk hblk => hB blk (by simp [hblk])
    have hlen' : (processBlock w h p arr (y₀, x₀)).length = w * h * 4 := by
      rw [processBlock_length, hlen]
    have hagree' : ∀ ux uy uc, ux < w → uy < h → uc < 4 →
        (p * (uy / p), p * (ux / p)) ∈ B →
        (processBlock w h p arr (y₀, x₀)).getD (pixIdx w ux uy uc) 0
          = orig.getD (pixIdx w ux uy uc) 0 := by
      intro ux uy uc hux huy huc hmem
      rw [getD_processBlock hp hx₀ hy₀ hxm hym hux huy huc arr hlen]
      rw [if_neg (fun hcov => hnotmem (by
        rw [hcov.1, hcov.2] at hmem
        exact hmem))]
      exact hagree ux uy uc hux huy huc (by simp [hmem])
    rw [List.foldl_cons, ih _ hB' hnodup' hlen' hagree']
    by_cases hmem : (p * (ty / p), p * (tx / p)) ∈ B
    · rw [if_pos hmem, if_pos (by simp [hmem])]
    · rw [if_neg hmem]
      rw [getD_processBlock hp hx₀ hy₀ hxm hym htx hty hc arr hlen]
      by_cases hcov : p * (tx / p) = x₀ ∧ p * (ty / p) = y₀
      · rw [if_pos hcov]
        rw [if_pos (by simp [hcov.1, hcov.2])]
        have hx₀a : p * (x₀ / p) = x₀ :=
          Nat.mul_div_cancel' (Nat.dvd_of_mod_eq_zero hxm)
        have hy₀a : p * (y₀ / p) = y₀ :=
          Nat.mul_div_cancel' (Nat.dvd_of_mod_eq_zero hym)
        have hcorner := hagree x₀ y₀ c hx₀ hy₀ hc (by
          rw [hx₀a, hy₀a]
          simp)
        rw [hcov.1, hcov.2, hcorner]
      · rw [if_neg hcov]
        rw [if_neg (fun hcon => ?_)]
        have := List.mem_cons.mp hcon
        rcases this with hthis | hthis
        · exact hcov ⟨(Prod.mk.injEq _ _ _ _ ▸ hthis).2, (Prod.mk.injEq _ _ _ _ ▸ hthis).1⟩
        · exact hmem hthis

/-- Characterization of applyPixelation with pixelSize ≥ 2: every pixel reads
the original value of its block's corner. -/
lemma applyPixelation_getD {w h p tx ty c : ℕ} (hp2 : 2 ≤ p)
    (data : List ℤ) (hlen : data.length = w * h * 4)
    (htx : tx < w) (hty : ty < h) (hc : c < 4) :
    (applyPixelation data w h p).getD (pixIdx w tx ty c) 0
      = data.getD (pixIdx w (p * (tx / p)) (p * (ty / p)) c) 0 := by
  unfold applyPixelation
  rw [if_neg (by omega)]
  rw [foldl_processBlock_getD (by omega) (blockList w h p) data data
    (fun blk hblk => by
      have := mem_blockList_iff.mp hblk
      exact ⟨this.1.1, this.1.2, this.2.1, this.2.2⟩)
    (blockList_nodup w h p) hlen
    (fun _ _ _ _ _ _ _ => rfl) tx ty c htx hty hc]
  rw [if_pos (mem_blockList_iff.mpr ?_)]
  constructor
  · constructor
    · calc p * (ty / p) ≤ ty := Nat.mul_div_le ty p
        _ < h := hty
    · simp [Nat.mul_mod_right]
  · constructor
    · calc p * (tx / p) ≤ tx := Nat.mul_div_le tx p
        _ < w := htx
    · simp [Nat.mul_mod_right]

/-- C5.  For every frame and every blockSize p ≥ 1: any two pixels of the
same p×p block (blocks clamped at the right/bottom edges) have identical
output values on every channel, the buffer length (hence the frame's width
and height) is unchanged, and blockSize ≤ 1 leaves the frame entirely
unchanged. -/
theorem C5_pixelation_block_invariant (data : List ℤ) (w h p : ℕ)
    (x₁ y₁ x₂ y₂ c : ℕ) (hp : 1 ≤ p) (hlen : data.length = w * h * 4)
    (hx₁ : x₁ < w) (hy₁ : y₁ < h) (hx₂ : x₂ < w) (hy₂ : y₂ < h) (hc : c < 4)
    (hbx : x₁ / p = x₂ / p) (hby : y₁ / p = y₂ / p) :
    (applyPixelation data w h p).getD (pixIdx w x₁ y₁ c) 0
      = (applyPixelation data w h p).getD (pixIdx w x₂ y₂ c) 0 ∧
    (applyPixelation data w h p).length = data.length ∧
    (p ≤ 1 → applyPixelation data w h p = data) := by
  refine ⟨?_, applyPixelation_length data w h p, fun hple => by
    unfold applyPixelation
    rw [if_pos hple]⟩
  by_cases hple : p ≤ 1
  · have hp1 : p = 1 := by omega
    subst hp1
    simp only [Nat.div_one] at hbx hby
    subst hbx; subst hby
    rfl
  · rw [applyPixelation_getD (by omega) data hlen hx₁ hy₁ hc,
      applyPixelation_getD (by omega) data hlen hx₂ hy₂ hc, hbx, hby]

/-- Witness for C5: a concrete 2×2 frame pixelated with blockSize 2 — the two
diagonal pixels of the single block agree (both read the corner value 1). -/
theorem C5_pixelation_block_invariant_witness :
    (1 ≤ 2 ∧ ([1, 2, 3, 4, 5, 6, 7, 8, 9, 10, 11, 12, 13, 14, 15, 16] : List ℤ).length
        = 2 * 2 * 4 ∧ (0 : ℕ) / 2 = 1 / 2) ∧
    ((applyPixelation [1, 2, 3, 4, 5, 6, 7, 8, 9, 10, 11, 12, 13, 14, 15, 16] 2 2 2).getD
        (pixIdx 2 0 0 0) 0
      = (applyPixelation [1, 2, 3, 4, 5, 6, 7, 8, 9, 10, 11, 12, 13, 14, 15, 16] 2 2 2).getD
        (pixIdx 2 1 1 0) 0 ∧
    (applyPixelation [1, 2, 3, 4, 5, 6, 7, 8, 9, 10, 11, 12, 13, 14, 15, 16] 2 2 2).length
      = ([1, 2, 3, 4, 5, 6, 7, 8, 9, 10, 11, 12, 13, 14, 15, 16] : List ℤ).length ∧
    (2 ≤ 1 → applyPixelation [1, 2, 3, 4, 5, 6, 7, 8, 9, 10, 11, 12, 13, 14, 15, 16] 2 2 2
      = [1, 2, 3, 4, 5, 6, 7, 8, 9, 10, 11, 12, 13, 14, 15, 16])) :=
  ⟨⟨by decide, by decide, by decide⟩,
    C5_pixelation_block_invariant [1, 2, 3, 4, 5, 6, 7, 8, 9, 10, 11, 12, 13, 14, 15, 16]
      2 2 2 0 0 1 1 0 (by decide) (by decide) (by decide) (by decide) (by decide)
      (by decide) (by decide) (by decide) (by decide)⟩

/-! ### Floyd–Steinberg error diffusion

Two implementations exist in the repository.  The plain one works on a copy
(`workingData`, a Uint8ClampedArray, whose stores clamp to [0,255] and round
to nearest with ties to even) and bounds-checks each of the four neighbor
writes.  The optimized one keeps a two-row float error buffer of
(width+2)·2·3 entries and addresses it through `subarray` views; its next-row
view is built with `subarray(nextRow * (width+2)*3, nextRow + 1 * (width+2)*3)`,
whose end — by operator precedence — is nextRow + (width+2)·3, so for
nextRow = 1 the view has length 1 and (like a JS typed array) silently drops
every out-of-range write. -/

/-- Math.max(0, Math.min(255, v)). -/
def clamp255 (q : ℚ) : ℚ := max 0 (min 255 q)

/-- A typed-array `subarray` view: offset into the backing buffer and length. -/
structure BufView where
  off : ℕ
  len : ℕ

/-- Read through a view (our reads are always within the view). -/
def vread (buf : ℕ → ℚ) (v : BufView) (i : ℕ) : ℚ :=
  if i < v.len then buf (v.off + i) else 0

/-- The `view[i] += q` statement: like JS typed arrays, an out-of-range index
silently does nothing. -/
def vadd (buf : ℕ → ℚ) (v : BufView) (i : ℕ) (q : ℚ) : ℕ → ℚ :=
  if i < v.len then Function.update buf (v.off + i) (buf (v.off + i) + q) else buf

/-- `view.fill(0)`. -/
def vfill (buf : ℕ → ℚ) (v : BufView) : ℕ → ℚ :=
  fun j => if v.off ≤ j ∧ j < v.off + v.len then 0 else buf j

/-- State of the optimized algorithm: the RGBA data and the error buffer. -/
structure FSOptState where
  data : List ℤ
  err : ℕ → ℚ

/-- One pixel of the optimized Floyd–Steinberg loop: apply accumulated error
scaled by intensity, clamp, resolve the nearest palette color on the
truncated channels, store it, then distribute the residual/16 with weights 7
(right, into the current row) and 3, 5, 1 (into the next-row view at indices
errIdx, errIdx+3, errIdx+6 — the source's indices, one slot to the right of
the below-left/below/below-right positions). -/
def fsOptPixel (palette : List RGB) (intensity : ℚ) (w h : ℕ)
    (cur next : BufView) (y : ℕ) (s : FSOptState) (x : ℕ) : FSOptState :=
  let idx := (y * w + x) * 4
  let errIdx := (x + 1) * 3
  let r := clamp255 ((s.data.getD idx 0 : ℚ) + vread s.err cur errIdx * intensity)
  let g := clamp255 ((s.data.getD (idx + 1) 0 : ℚ) + vread s.err cur (errIdx + 1) * intensity)
  let b := clamp255 ((s.data.getD (idx + 2) 0 : ℚ) + vread s.err cur (errIdx + 2) * intensity)
  let n := findNearestColor ⟨jsTrunc r, jsTrunc g, jsTrunc b⟩ palette
  let errR := (r - (n.r : ℚ)) / 16
  let errG := (g - (n.g : ℚ)) / 16
  let errB := (b - (n.b : ℚ)) / 16
  let data1 := ((s.data.set idx n.r).set (idx + 1) n.g).set (idx + 2) n.b
  let e1 :=
    if x < w - 1 then
      vadd (vadd (vadd s.err cur (errIdx + 3) (errR * 7)) cur (errIdx + 4) (errG * 7))
        cur (errIdx + 5) (errB * 7)
    else s.err
  let e2 :=
    if y < h - 1 then
      let ea :=
        if 0 < x then
          vadd (vadd (vadd e1 next errIdx (errR * 3)) next (errIdx + 1) (errG * 3))
            next (errIdx + 2) (errB * 3)
        else e1
      let eb := vadd (vadd (vadd ea next (errIdx + 3) (errR * 5)) next (errIdx + 4) (errG * 5))
        next (errIdx + 5) (errB * 5)
      if x < w - 1 then
        vadd (vadd (vadd eb next (errIdx + 6) errR) next (errIdx + 7) errG)
          next (errIdx + 8) errB
      else eb
    else e1
  ⟨data1, e2⟩

/-- One row of the optimized loop: build the two subarray views (the next-row
view with the source's mis-parenthesized end `nextRow + 1 * (width+2)*3`,
clamped to the buffer), clear the next row, process the pixels, and swap
currentRow. -/
def fsOptRow (palette : List RGB) (intensity : ℚ) (w h : ℕ)
    (sc : FSOptState × ℕ) (y : ℕ) : FSOptState × ℕ :=
  let currentRow := sc.2
  let nextRow := 1 - currentRow
  let total := (w + 2) * 2 * 3
  let cur : BufView := ⟨currentRow * ((w + 2) * 3), (w + 2) * 3⟩
  let nextOff := nextRow * ((w + 2) * 3)
  let nextEnd := min (nextRow + (w + 2) * 3) total
  let next : BufView := ⟨nextOff, nextEnd - nextOff⟩
  let s1 : FSOptState := ⟨sc.1.data, vfill sc.1.err next⟩
  ((List.range w).foldl (fsOptPixel palette intensity w h cur next y) s1, nextRow)

/-- The optimized applyFloydSteinbergDithering at full resolution (the
resolution < 1 branch downscales, recurses at resolution 1 and upscales; the
claims concern the full-resolution algorithm). -/
def applyFloydSteinbergDitheringOpt (data : List ℤ) (w h : ℕ)
    (palette : List RGB) (intensity : ℚ) : List ℤ :=
  (((List.range h).foldl (fsOptRow palette intensity w h) (⟨data, fun _ => 0⟩, 0)).1).data

/-- Round to nearest, ties to even — the Uint8ClampedArray store rounding. -/
def roundHalfEven (q : ℚ) : ℤ :=
  if q < (⌊q⌋ : ℚ) + 1 / 2 then ⌊q⌋
  else if (⌊q⌋ : ℚ) + 1 / 2 < q then ⌊q⌋ + 1
  else if ⌊q⌋ % 2 = 0 then ⌊q⌋ else ⌊q⌋ + 1

/-- A store into a Uint8ClampedArray cell: clamp to [0, 255], round to
nearest with ties to even. -/
def u8clamp (q : ℚ) : ℤ :=
  if q ≤ 0 then 0 else if 255 ≤ q then 255 else roundHalfEven q

/-- The `distribute(ox, oy, weight)` closure of the plain implementation:
bounds-check, then accumulate the weighted error into workingData (whose
store clamps and rounds). -/
def distributeFS (w h : ℕ) (x y : ℕ) (ox oy : ℤ) (weight : ℚ)
    (errR errG errB : ℚ) (working : List ℤ) : List ℤ :=
  let nx := (x : ℤ) + ox
  let ny := (y : ℤ) + oy
  if 0 ≤ nx ∧ nx < w ∧ 0 ≤ ny ∧ ny < h then
    let nidx := (ny.toNat * w + nx.toNat) * 4
    ((working.set nidx (u8clamp ((working.getD nidx 0 : ℚ) + errR * weight))).set
      (nidx + 1) (u8clamp ((working.getD (nidx + 1) 0 : ℚ) + errG * weight))).set
      (nidx + 2) (u8clamp ((working.getD (nidx + 2) 0 : ℚ) + errB * weight))
  else working

/-- One pixel of the plain Floyd–Steinberg loop: read workingData, resolve,
store the palette color into data, then distribute the residual with weights
7/16 right, 3/16 down-left, 5/16 down, 1/16 down-right.  The state is
(data, workingData). -/
def fsPlainPixel (palette : List RGB) (intensity : ℚ) (w h : ℕ) (y : ℕ)
    (s : List ℤ × List ℤ) (x : ℕ) : List ℤ × List ℤ :=
  let idx := (y * w + x) * 4
  let r := s.2.getD idx 0
  let g := s.2.getD (idx + 1) 0
  let b := s.2.getD (idx + 2) 0
  let a := s.2.getD (idx + 3) 0
  let n := findNearestColor ⟨r, g, b⟩ palette
  let errR := ((r : ℚ) - (n.r : ℚ)) * intensity
  let errG := ((g : ℚ) - (n.g : ℚ)) * intensity
  let errB := ((b : ℚ) - (n.b : ℚ)) * intensity
  let data1 := (((s.1.set idx n.r).set (idx + 1) n.g).set (idx + 2) n.b).set (idx + 3) a
  let wk1 := distributeFS w h x y 1 0 (7 / 16) errR errG errB s.2
  let wk2 := distributeFS w h x y (-1) 1 (3 / 16) errR errG errB wk1
  let wk3 := distributeFS w h x y 0 1 (5 / 16) errR errG errB wk2
  let wk4 := distributeFS w h x y 1 1 (1 / 16) errR errG errB wk3
  (data1, wk4)

/-- The plain applyFloydSteinbergDithering at full resolution: row-major over
a working copy of the data. -/
def applyFloydSteinbergDithering (data : List ℤ) (w h : ℕ)
    (palette : List RGB) (intensity : ℚ) : List ℤ :=
  ((List.range h).foldl
    (fun s y => (List.range w).foldl (fsPlainPixel palette intensity w h y) s)
    (data, data)).1

/-- The failing frame for C2: a 1×2 frame, top pixel (120,120,120), bottom
pixel (100,100,100). -/
def dataC2 : List ℤ := [120, 120, 120, 255, 100, 100, 100, 255]

/-- A black-and-white two-entry palette. -/
def bwPal : List RGB := [⟨0, 0, 0⟩, ⟨255, 255, 255⟩]

set_option maxHeartbeats 1000000 in
set_option maxRecDepth 4096 in
/-- C2.  The optimized implementation does not distribute the residual as
claimed.  On the 1×2 frame dataC2 with the black/white palette at intensity
1: the top pixel quantizes to black with residual +120 per channel, and the
claimed weights give the pixel below 100 + 5/16·120 = 137.5, which quantizes
to white — the plain implementation indeed outputs 255 there (first
conjunct).  The optimized implementation outputs 0 (second conjunct): its
next-row error writes target indices errIdx, errIdx+3, errIdx+6 — one slot to
the right of the below-left/below/below-right positions read back as
(x+1)·3 — and, independently, its next-row `subarray` view for even rows has
length 1 by the mis-parenthesized end (fourth conjunct), so every next-row
accumulation, which starts at index 3, is silently dropped (third conjunct). -/
theorem C2_error_distribution_bug :
    (applyFloydSteinbergDithering dataC2 1 2 bwPal 1).getD 4 0 = 255 ∧
    (applyFloydSteinbergDitheringOpt dataC2 1 2 bwPal 1).getD 4 0 = 0 ∧
    (∀ (buf : ℕ → ℚ) (off i : ℕ) (q : ℚ), 3 ≤ i → vadd buf ⟨off, 1⟩ i q = buf) ∧
    (∀ w : ℕ, min (1 + (w + 2) * 3) ((w + 2) * 2 * 3) - 1 * ((w + 2) * 3) = 1) := by
  refine ⟨?_, ?_, ?_, ?_⟩
  · norm_num [applyFloydSteinbergDithering, fsPlainPixel, distributeFS, u8clamp,
      roundHalfEven, findNearestColor, fncStep, distSq, dataC2, bwPal,
      List.range_succ]
  · norm_num [applyFloydSteinbergDitheringOpt, fsOptRow, fsOptPixel, vread, vadd,
      vfill, clamp255, jsTrunc, findNearestColor, fncStep, distSq, dataC2, bwPal,
      List.range_succ, max_def, min_def, Function.update_apply]
  · intro buf off i q hi
    unfold vadd
    have hlt : ¬ i < (BufView.mk off 1).len := by
      dsimp only
      omega
    rw [if_neg hlt]
  · intro w
    omega

/-! ### The capture phase of the export pipeline (part_006, exportVideo)

Constants: targetFrameCount = Math.round(loopDuration·loopCount·fps),
frameIntervalMs = 1000/fps, exactDurationMs = targetFrameCount/fps·1000,
stopDurationMs = exactDurationMs − frameIntervalMs·0.1.  The raw-capture
interval callback recomputes expectedFrame = floor(elapsed/1000·fps) on each
tick, returns early when it has not advanced (and a frame exists), stops when
the abort flag is set or elapsed ≥ stopDurationMs, and otherwise captures one
frame (the canvas read can throw, in which case nothing is pushed). -/

/-- Math.round: floor(x + 1/2) (ties round up). -/
def jsRound (q : ℚ) : ℤ := ⌊q + 1 / 2⌋

/-- `targetFrameCount = Math.round(targetDuration * exportFps)` with
`targetDuration = loopDuration * exportLoopCount`. -/
def targetFrameCount (loopDuration fps loopCount : ℚ) : ℤ :=
  jsRound (loopDuration * loopCount * fps)

/-- `frameIntervalMs = 1000 / exportFps`. -/
def frameIntervalMs (fps : ℚ) : ℚ := 1000 / fps

/-- `exactDurationMs = (targetFrameCount / exportFps) * 1000`. -/
def exactDurationMs (loopDuration fps loopCount : ℚ) : ℚ :=
  ((targetFrameCount loopDuration fps loopCount : ℚ) / fps) * 1000

/-- `stopDurationMs = exactDurationMs - (frameIntervalMs * 0.1)`. -/
def stopDurationMs (loopDuration fps loopCount : ℚ) : ℚ :=
  exactDurationMs loopDuration fps loopCount - frameIntervalMs fps * 0.1

/-- One observed scheduler tick: the elapsed wall-clock ms since captureStart,
the abort flag's value, and whether the canvas read succeeds. -/
structure CaptureTick where
  elapsed : ℚ
  abortFlag : Bool
  readOk : Bool
deriving DecidableEq

/-- State of the capture loop: `capturedCount`, the captured frame indices in
order (each entry is the expectedFrame at its capture), and whether
clearInterval has run. -/
structure CaptureState where
  capturedCount : ℤ
  rawFrames : List ℤ
  stopped : Bool
deriving DecidableEq

/-- One tick of the raw-capture loop (part_006 lines 988–1013). -/
def captureTick (fps stopMs : ℚ) (s : CaptureState) (t : CaptureTick) : CaptureState :=
  if s.stopped then s
  else
    let expectedFrame : ℤ := ⌊t.elapsed / 1000 * fps⌋
    if expectedFrame ≤ s.capturedCount ∧ s.rawFrames ≠ [] then s
    else if t.abortFlag ∨ stopMs ≤ t.elapsed then
      ⟨expectedFrame, s.rawFrames, true⟩
    else if t.readOk then
      ⟨expectedFrame, s.rawFrames ++ [expectedFrame], false⟩
    else
      ⟨expectedFrame, s.rawFrames, false⟩

/-- A whole capture phase: fold the ticks from the initial state. -/
def runCapture (fps stopMs : ℚ) (ticks : List CaptureTick) : CaptureState :=
  ticks.foldl (captureTick fps stopMs) ⟨0, [], false⟩

/-- Invariant of the capture loop at fps 30 with the 2-loop stop time: the
frame indices are strictly increasing, lie in [0, 119], and are bounded by
capturedCount. -/
def CaptureInv (s : CaptureState) : Prop :=
  s.rawFrames.Pairwise (· < ·) ∧
  (∀ v ∈ s.rawFrames, 0 ≤ v ∧ v ≤ 119) ∧
  (∀ v ∈ s.rawFrames, v ≤ s.capturedCount)

lemma captureTick_inv (s : CaptureState) (t : CaptureTick)
    (h0 : 0 ≤ t.elapsed) (hinv : CaptureInv s) :
    CaptureInv (captureTick 30 (11990 / 3) s t) := by
  obtain ⟨hpw, hbd, hcc⟩ := hinv
  unfold captureTick
  by_cases hst : s.stopped
  · rw [if_pos hst]
    exact ⟨hpw, hbd, hcc⟩
  · rw [if_neg hst]
    by_cases hskip : (⌊t.elapsed / 1000 * 30⌋ ≤ s.capturedCount ∧ s.rawFrames ≠ [])
    · rw [if_pos hskip]
      exact ⟨hpw, hbd, hcc⟩
    · rw [if_neg hskip]
      by_cases hstop : (t.abortFlag = true ∨ (11990 / 3 : ℚ) ≤ t.elapsed)
      · simp only [hstop, if_pos]
        refine ⟨hpw, hbd, fun v hv => ?_⟩
        have hle := hcc v hv
        by_cases hne : s.rawFrames = []
        · simp [hne] at hv
        · have : ¬ ⌊t.elapsed / 1000 * 30⌋ ≤ s.capturedCount := fun hcon =>
            hskip ⟨hcon, hne⟩
          dsimp only
          omega
      · simp only [hstop, if_neg, not_false_iff]
        have hel : t.elapsed < 11990 / 3 := by
          rcases not_or.mp hstop with ⟨_, h⟩
          linarith [not_le.mp h]
        have hef0 : 0 ≤ ⌊t.elapsed / 1000 * 30⌋ := by
          apply Int.floor_nonneg.mpr
          positivity
        have hef119 : ⌊t.elapsed / 1000 * 30⌋ ≤ 119 := by
          have : t.elapsed / 1000 * 30 < 120 := by linarith
          have hlt : ⌊t.elapsed / 1000 * 30⌋ < 120 := Int.floor_lt.mpr (by exact_mod_cast this)
          omega
        have hgt : ∀ v ∈ s.rawFrames, v < ⌊t.elapsed / 1000 * 30⌋ := by
          intro v hv
          by_cases hne : s.rawFrames = []
          · simp [hne] at hv
          · have : ¬ ⌊t.elapsed / 1000 * 30⌋ ≤ s.capturedCount := fun hcon =>
              hskip ⟨hcon, hne⟩
            have := hcc v hv
            omega
        by_cases hok : t.readOk = true
        · simp only [hok, if_pos]
          refine ⟨?_, ?_, ?_⟩
          · rw [List.pairwise_append]
            exact ⟨hpw, List.pairwise_singleton _ _,
              fun a ha b hb => by
                rw [List.mem_singleton] at hb
                subst hb
                exact hgt a ha⟩
          · intro v hv
            rcases List.mem_append.mp hv with hv | hv
            · exact hbd v hv
            · rw [List.mem_singleton] at hv
              subst hv
              exact ⟨hef0, hef119⟩
          · intro v hv
            dsimp only
            rcases List.mem_append.mp hv with hv | hv
            · exact le_of_lt (hgt v hv)
            · rw [List.mem_singleton] at hv
              omega
        · simp only [hok, if_neg, not_false_iff]
          refine ⟨hpw, hbd, fun v hv => ?_⟩
          exact le_of_lt (hgt v hv)

lemma runCapture_inv (ticks : List CaptureTick)
    (h0 : ∀ t ∈ ticks, 0 ≤ t.elapsed) :
    CaptureInv (runCapture 30 (11990 / 3) ticks) := by
  unfold runCapture
  have hgen : ∀ (l : List CaptureTick) (s : CaptureState),
      (∀ t ∈ l, 0 ≤ t.elapsed) → CaptureInv s →
      CaptureInv (l.foldl (captureTick 30 (11990 / 3)) s) := by
    intro l
    induction l with
    | nil => intro s _ hs; exact hs
    | cons t l ih =>
      intro s hl hs
      rw [List.foldl_cons]
      exact ih _ (fun u hu => hl u (by simp [hu]))
        (captureTick_inv s t (hl t (by simp)) hs)
  exact hgen ticks _ h0 ⟨List.Pairwise.nil, by simp, by simp⟩

/-- A strictly increasing list of integers in [0, 119] has at most 120
elements. -/
lemma strictIncr_length_le (l : List ℤ) (hpw : l.Pairwise (· < ·))
    (hbd : ∀ v ∈ l, 0 ≤ v ∧ v ≤ 119) : l.length ≤ 120 := by
  have hnd : l.Nodup := hpw.imp (fun h => ne_of_lt h)
  have hsub : l.toFinset ⊆ Finset.Icc (0 : ℤ) 119 := by
    intro v hv
    rw [List.mem_toFinset] at hv
    rw [Finset.mem_Icc]
    exact hbd v hv
  have hcard := Finset.card_le_card hsub
  rw [List.toFinset_card_of_nodup hnd] at hcard
  rw [Int.card_Icc] at hcard
  omega

/-- C6.  With loopDuration 2 s, fps 30, loopCount 2 the pipeline computes
targetFrameCount = 120 and stopDurationMs = 4000 − 0.1·(1000/30) = 11990/3 ms,
and over EVERY tick sequence with non-negative elapsed times (the expected
frame index is recomputed from elapsed time on each tick) the capture loop
captures at most 120 raw frames, with no frame index captured twice (the
captured indices are in fact strictly increasing). -/
theorem C6_frame_count_bound (ticks : List CaptureTick)
    (h0 : ∀ t ∈ ticks, 0 ≤ t.elapsed) :
    targetFrameCount 2 30 2 = 120 ∧
    stopDurationMs 2 30 2 = 11990 / 3 ∧
    (runCapture 30 (11990 / 3) ticks).rawFrames.length ≤ 120 ∧
    (runCapture 30 (11990 / 3) ticks).rawFrames.Nodup := by
  have htc : targetFrameCount 2 30 2 = 120 := by
    unfold targetFrameCount jsRound
    norm_num
  obtain ⟨hpw, hbd, _⟩ := runCapture_inv ticks h0
  refine ⟨htc, ?_, strictIncr_length_le _ hpw hbd, hpw.imp (fun h => ne_of_lt h)⟩
  unfold stopDurationMs exactDurationMs frameIntervalMs
  rw [htc]
  norm_num

/-- Witness for C6: two concrete ticks at elapsed time 0. -/
theorem C6_frame_count_bound_witness :
    (∀ t ∈ [CaptureTick.mk 0 false true, CaptureTick.mk 0 false true],
      0 ≤ t.elapsed) ∧
    (targetFrameCount 2 30 2 = 120 ∧
      stopDurationMs 2 30 2 = 11990 / 3 ∧
      (runCapture 30 (11990 / 3)
        [CaptureTick.mk 0 false true, CaptureTick.mk 0 false true]).rawFrames.length ≤ 120 ∧
      (runCapture 30 (11990 / 3)
        [CaptureTick.mk 0 false true, CaptureTick.mk 0 false true]).rawFrames.Nodup) :=
  ⟨by simp, C6_frame_count_bound
    [CaptureTick.mk 0 false true, CaptureTick.mk 0 false true] (by simp)⟩

/-! ### The post-processing export path and the abort flag (part_006)

After raw capture, Phase 2 processes frames offline, checking
`if (abortRef.current) break` at the top of each iteration (checkpoints
0 … n−1) and `if (abortRef.current) return` just after the loop (checkpoint
n); only Phase 3 delivers frames to the recorder, and its onstop handler
builds and downloads the artifact only when the flag is clear and chunks
exist.  The abort flag is only ever set (never cleared) during an export, so
it is modelled as a monotone Bool-valued function of the checkpoint index. -/

/-- A pipeline outcome: the frames delivered to the encoder, whether a
finished artifact (downloaded blob) was produced, and whether the run ended
on the post-processing abort return. -/
structure ExportResult where
  delivered : List ℤ
  artifact : Bool
  abortedOutcome : Bool
deriving DecidableEq

/-- Phase 2 (part_006 lines 1025–1058): for each index, observe the abort
flag; on abort break; otherwise replace rawFrames[i] by the processed frame
(the per-frame effect stack is abstracted as `effect`). -/
def processLoop (abort : ℕ → Bool) (effect : ℤ → ℤ) (frames : List ℤ) : List ℤ :=
  ((List.range frames.length).foldl
    (fun acc i =>
      if acc.2 then acc
      else if abort i then (acc.1, true)
      else (acc.1.set i (effect (acc.1.getD i 0)), false))
    (frames, false)).1

/-- Phase 3 playback: frame 0 is drawn before the recorder starts; then
scheduleFrame delivers frames 1, 2, … until the index runs out or the abort
flag is observed (checkpoints n+1, n+2, …). -/
def playbackDeliver (abort : ℕ → Bool) (n : ℕ) (processed : List ℤ) : List ℤ :=
  processed.getD 0 0 ::
    ((List.range' 1 (processed.length - 1)).foldl
      (fun acc i =>
        if acc.2 then acc
        else if abort (n + i) then (acc.1, true)
        else (acc.1 ++ [processed.getD i 0], false))
      (([] : List ℤ), false)).1

/-- Phases 2 and 3 of the post-processing video path, entered after raw
capture with a non-empty frame list and a clear flag. -/
def runPostProcessing (abort : ℕ → Bool) (effect : ℤ → ℤ)
    (chunksNonempty : Bool) (frames : List ℤ) : ExportResult :=
  let n := frames.length
  let processed := processLoop abort effect frames
  if abort n then ⟨[], false, true⟩
  else
    ⟨playbackDeliver abort n processed,
      (!(abort (n + processed.length)) && chunksNonempty), false⟩

/-- C7.  If the abort flag (which is only ever set, never cleared: monotone)
is set at any observation point of the Processing phase — a loop checkpoint
k < n or the post-loop guard k = n — the pipeline reaches the aborted
outcome: no processed frames are delivered to the encoder and no finished
artifact is produced, regardless of the frames, the effect stack, or whether
the recorder would have produced chunks. -/
theorem C7_abort_during_processing (abort : ℕ → Bool) (effect : ℤ → ℤ)
    (chunksNonempty : Bool) (frames : List ℤ)
    (hmono : ∀ i j : ℕ, i ≤ j → abort i = true → abort j = true)
    (hobs : ∃ k ≤ frames.length, abort k = true) :
    runPostProcessing abort effect chunksNonempty frames
      = ⟨[], false, true⟩ := by
  obtain ⟨k, hk, hka⟩ := hobs
  have hn : abort frames.length = true := hmono k frames.length hk hka
  unfold runPostProcessing
  simp only [hn, if_true]

/-- Witness for C7: the always-set abort flag observed at checkpoint 0 of a
two-frame processing phase. -/
theorem C7_abort_during_processing_witness :
    ((∀ i j : ℕ, i ≤ j → (fun _ : ℕ => true) i = true → (fun _ : ℕ => true) j = true) ∧
      ∃ k ≤ ([3, 4] : List ℤ).length, (fun _ : ℕ => true) k = true) ∧
    runPostProcessing (fun _ => true) (fun v => v) true [3, 4]
      = ⟨[], false, true⟩ :=
  ⟨⟨fun _ _ _ h => h, ⟨0, Nat.zero_le _, rfl⟩⟩,
    C7_abort_during_processing (fun _ => true) (fun v => v) true [3, 4]
      (fun _ _ _ h => h) ⟨0, Nat.zero_le _, rfl⟩⟩

end Animatoor
